import Mathlib

/-!
# Verification of `OutBuffer` (src/include/outbuffer.h)

A shallow embedding of the AMQP-CPP `OutBuffer` class: a fixed-capacity,
append-only byte accumulator with typed `add` overloads.  Bytes are
modelled as natural numbers below 256, the allocation as a `List Nat`
whose length is the capacity, and the write cursor (`_current`, a raw
pointer in the C++ source) as an offset from the base address.  The
host's byte order is an explicit `Endian` parameter, so the
host-order/network-order conversions of `endian.h` are visible in the
model.
-/

namespace AMQPSpec

/-- The byte order of the host machine. -/
inductive Endian
  | big
  | little
deriving DecidableEq, Repr

/-- The `w` least-significant bytes of `v`, least-significant byte first
(the memory layout of a `w`-byte unsigned integer on a little-endian host). -/
def bytesLE : Nat → Nat → List Nat
  | 0, _ => []
  | w + 1, v => v % 256 :: bytesLE w (v / 256)

/-- Reassemble a little-endian byte list into a natural number. -/
def leToNat : List Nat → Nat
  | [] => 0
  | b :: bs => b + 256 * leToNat bs

/-- The `w` least-significant bytes of `v`, most-significant byte first
(network byte order). -/
def bytesBE (w v : Nat) : List Nat := (bytesLE w v).reverse

/-- Reassemble a big-endian byte list into a natural number. -/
def beToNat (bs : List Nat) : Nat := leToNat bs.reverse

/-- The memory layout of the `w`-byte unsigned integer `v` on a host with
byte order `e`: this is what `memcpy(&v, w)` reads. -/
def hostBytes : Endian → Nat → Nat → List Nat
  | .big, w, v => bytesBE w v
  | .little, w, v => bytesLE w v

/-- Reinterpret `w` bytes of memory as an unsigned integer on a host with
byte order `e`. -/
def hostToNat : Endian → List Nat → Nat
  | .big, bs => beToNat bs
  | .little, bs => leToNat bs

/-- Modelled from the spec: the `htobe16`/`htobe32`/`htobe64` conversion of
the repository's `endian.h` (the header is included by `outbuffer.h` but is
not part of the provided sources).  Per the spec's endianness contract
("host order → big-endian (network order)"), it returns the `w`-byte value
whose host-order memory bytes are the big-endian bytes of `v`: the identity
on big-endian hosts and a byte swap on little-endian hosts. -/
def htobe (e : Endian) (w v : Nat) : Nat :=
  match e with
  | .big => v % 256 ^ w
  | .little => beToNat (bytesLE w v)

/-- The two's-complement bit pattern of the signed integer `i` at width
`w` bytes, as an unsigned value (the effect of the C integral conversion
`intN_t → uintN_t`). -/
def toUnsigned (w : Nat) (i : Int) : Nat := (i % ((256 : Int) ^ w)).toNat

/-- The `OutBuffer` state.  `buffer` is the content of the owned
allocation (`_buffer`, length = capacity), `current` is the write cursor
`_current` as an offset from the base address, `size` is `_size`, and
`capacity` is `_capacity`. -/
structure OutBuffer where
  buffer : List Nat
  current : Nat
  size : Nat
  capacity : Nat
deriving DecidableEq, Repr

namespace OutBuffer

/-- `OutBuffer(uint32_t capacity)`: a fresh allocation of `capacity`
bytes with the cursor at the base and size 0.  The allocation is
uninitialized, so its content `init` (of length `capacity`) is a
parameter of the model. -/
def new (capacity : Nat) (init : List Nat) : OutBuffer :=
  { buffer := init, current := 0, size := 0, capacity := capacity }

/-- `data()`: the content of the owned allocation. -/
def data (b : OutBuffer) : List Nat := b.buffer

/-- `memcpy(dest + offset, src, src.length)`: overwrite `src.length`
bytes of `dest` starting at `offset`. -/
def writeBytes (dest : List Nat) (offset : Nat) (src : List Nat) : List Nat :=
  dest.take offset ++ src ++ dest.drop (offset + src.length)

/-- `add(const char *string, uint32_t size)`: copy the span to the
cursor, then advance the cursor and the size by its length. -/
def add (b : OutBuffer) (s : List Nat) : OutBuffer :=
  { b with
    buffer := writeBytes b.buffer b.current s
    current := b.current + s.length
    size := b.size + s.length }

/-- `add(const std::string &string)`: delegates to
`add(string.c_str(), string.size())`.  The `size_t` length is narrowed
to the `uint32_t` parameter, so only the first `length mod 2^32` bytes
are copied. -/
def addString (b : OutBuffer) (s : List Nat) : OutBuffer :=
  b.add (s.take (s.length % 2 ^ 32))

/-- `add(uint8_t value)`: one byte, no byte-order conversion. -/
def addUInt8 (b : OutBuffer) (value : Nat) : OutBuffer :=
  b.add [value % 256]

/-- `add(uint16_t value)`: `v = htobe16(value)`, then `memcpy(&v, 2)`. -/
def addUInt16 (e : Endian) (b : OutBuffer) (value : Nat) : OutBuffer :=
  b.add (hostBytes e 2 (htobe e 2 value))

/-- `add(uint32_t value)`: `v = htobe32(value)`, then `memcpy(&v, 4)`. -/
def addUInt32 (e : Endian) (b : OutBuffer) (value : Nat) : OutBuffer :=
  b.add (hostBytes e 4 (htobe e 4 value))

/-- `add(uint64_t value)`: `v = htobe64(value)`, then `memcpy(&v, 8)`. -/
def addUInt64 (e : Endian) (b : OutBuffer) (value : Nat) : OutBuffer :=
  b.add (hostBytes e 8 (htobe e 8 value))

/-- `add(int8_t value)`: one byte, no conversion; the byte written is
the two's-complement pattern of `value`. -/
def addInt8 (b : OutBuffer) (value : Int) : OutBuffer :=
  b.add [toUnsigned 1 value]

/-- `add(int16_t value)`: `v = htobe16(value)` (the argument is
converted to `uint16_t`, i.e. to its two's-complement pattern), then
`memcpy(&v, 2)`. -/
def addInt16 (e : Endian) (b : OutBuffer) (value : Int) : OutBuffer :=
  b.add (hostBytes e 2 (htobe e 2 (toUnsigned 2 value)))

/-- `add(int32_t value)`: `v = htobe32(value)`, then `memcpy(&v, 4)`. -/
def addInt32 (e : Endian) (b : OutBuffer) (value : Int) : OutBuffer :=
  b.add (hostBytes e 4 (htobe e 4 (toUnsigned 4 value)))

/-- `add(int64_t value)`: `v = htobe64(value)`, then `memcpy(&v, 8)`. -/
def addInt64 (e : Endian) (b : OutBuffer) (value : Int) : OutBuffer :=
  b.add (hostBytes e 8 (htobe e 8 (toUnsigned 8 value)))

/-- `add(float value)`: `memcpy(&value, 4)` with no byte-order
conversion — the host-order bytes of the 32-bit pattern are written
verbatim.  A float is modelled by its IEEE-754 bit pattern. -/
def addFloat (e : Endian) (b : OutBuffer) (pattern : Nat) : OutBuffer :=
  b.add (hostBytes e 4 pattern)

/-- `add(double value)`: `memcpy(&value, 8)` with no byte-order
conversion, the 64-bit pattern written in host order verbatim. -/
def addDouble (e : Endian) (b : OutBuffer) (pattern : Nat) : OutBuffer :=
  b.add (hostBytes e 8 pattern)

/-- `OutBuffer(const OutBuffer &that)`: a fresh allocation of
`that._capacity` bytes (its uninitialized content `alloc` is a model
parameter), the first `that._size` bytes copied from `that`, cursor at
base + `that._size`, same size and capacity. -/
def copy (that : OutBuffer) (alloc : List Nat) : OutBuffer :=
  { buffer := writeBytes alloc 0 (that.buffer.take that.size)
    current := that.size
    size := that.size
    capacity := that.capacity }

/-- `OutBuffer(OutBuffer &&that)`: the first component is the newly
constructed buffer (taking over `that`'s allocation, cursor, size and
capacity); the second is `that` after the move (pointer cleared, cursor
null, size and capacity zero). -/
def move (that : OutBuffer) : OutBuffer × OutBuffer :=
  ({ buffer := that.buffer
     current := that.current
     size := that.size
     capacity := that.capacity },
   { buffer := []
     current := 0
     size := 0
     capacity := 0 })

end OutBuffer

/-- One append operation, covering every `add` overload. -/
inductive Op
  | span (bytes : List Nat)
  | str (bytes : List Nat)
  | u8 (v : Nat)
  | u16 (v : Nat)
  | u32 (v : Nat)
  | u64 (v : Nat)
  | i8 (v : Int)
  | i16 (v : Int)
  | i32 (v : Int)
  | i64 (v : Int)
  | f32 (pattern : Nat)
  | f64 (pattern : Nat)
deriving DecidableEq, Repr

/-- The bytes an operation appends on a host with byte order `e`. -/
def encode (e : Endian) : Op → List Nat
  | .span bs => bs
  | .str bs => bs.take (bs.length % 2 ^ 32)
  | .u8 v => [v % 256]
  | .u16 v => hostBytes e 2 (htobe e 2 v)
  | .u32 v => hostBytes e 4 (htobe e 4 v)
  | .u64 v => hostBytes e 8 (htobe e 8 v)
  | .i8 v => [toUnsigned 1 v]
  | .i16 v => hostBytes e 2 (htobe e 2 (toUnsigned 2 v))
  | .i32 v => hostBytes e 4 (htobe e 4 (toUnsigned 4 v))
  | .i64 v => hostBytes e 8 (htobe e 8 (toUnsigned 8 v))
  | .f32 p => hostBytes e 4 p
  | .f64 p => hostBytes e 8 p

/-- Run one operation on a buffer, dispatching to the matching `add`
overload. -/
def applyOp (e : Endian) (b : OutBuffer) : Op → OutBuffer
  | .span bs => b.add bs
  | .str bs => b.addString bs
  | .u8 v => b.addUInt8 v
  | .u16 v => b.addUInt16 e v
  | .u32 v => b.addUInt32 e v
  | .u64 v => b.addUInt64 e v
  | .i8 v => b.addInt8 v
  | .i16 v => b.addInt16 e v
  | .i32 v => b.addInt32 e v
  | .i64 v => b.addInt64 e v
  | .f32 p => b.addFloat e p
  | .f64 p => b.addDouble e p

/-- Run a sequence of operations in call order. -/
def applyOps (e : Endian) (b : OutBuffer) (ops : List Op) : OutBuffer :=
  ops.foldl (applyOp e) b

/-- The concatenation of each operation's encoded bytes in call order. -/
def encodeAll (e : Endian) (ops : List Op) : List Nat :=
  (ops.map (encode e)).flatten

/-- The sum of each operation's encoded size. -/
def totalSize (e : Endian) (ops : List Op) : Nat :=
  (ops.map (fun op => (encode e op).length)).sum

/-- The buffer states reachable by construction, copy, move, and append
operations whose operands fit the remaining capacity. -/
inductive Reachable (e : Endian) : OutBuffer → Prop
  | new (capacity : Nat) (init : List Nat) (h : init.length = capacity) :
      Reachable e (OutBuffer.new capacity init)
  | copy (b : OutBuffer) (alloc : List Nat) (hb : Reachable e b)
      (halloc : alloc.length = b.capacity) :
      Reachable e (b.copy alloc)
  | moveTarget (b : OutBuffer) (hb : Reachable e b) :
      Reachable e b.move.1
  | moveSource (b : OutBuffer) (hb : Reachable e b) :
      Reachable e b.move.2
  | add (b : OutBuffer) (op : Op) (hb : Reachable e b)
      (hfit : b.size + (encode e op).length ≤ b.capacity) :
      Reachable e (applyOp e b op)

/-! ## Byte-level lemmas -/

theorem length_bytesLE (w v : Nat) : (bytesLE w v).length = w := by
  induction w generalizing v with
  | zero => rfl
  | succ w ih => simp [bytesLE, ih]

theorem length_bytesBE (w v : Nat) : (bytesBE w v).length = w := by
  simp [bytesBE, length_bytesLE]

theorem length_hostBytes (e : Endian) (w v : Nat) :
    (hostBytes e w v).length = w := by
  cases e <;> simp [hostBytes, length_bytesLE, length_bytesBE]

theorem bytesLE_lt (w v : Nat) : ∀ b ∈ bytesLE w v, b < 256 := by
  induction w generalizing v with
  | zero => simp [bytesLE]
  | succ w ih =>
    intro b hb
    rcases List.mem_cons.mp hb with h | h
    · exact h ▸ Nat.mod_lt _ (by norm_num)
    · exact ih (v / 256) b h

theorem leToNat_bytesLE (w v : Nat) : leToNat (bytesLE w v) = v % 256 ^ w := by
  induction w generalizing v with
  | zero => simp [bytesLE, leToNat, Nat.mod_one]
  | succ w ih =>
    rw [bytesLE, leToNat, ih, pow_succ' 256 w, Nat.mod_mul]

theorem bytesLE_leToNat (bs : List Nat) (h : ∀ b ∈ bs, b < 256) :
    bytesLE bs.length (leToNat bs) = bs := by
  induction bs with
  | nil => rfl
  | cons b bs ih =>
    have hb : b < 256 := h b (List.mem_cons_self b bs)
    have hmod : (b + 256 * leToNat bs) % 256 = b := by
      rw [Nat.add_mul_mod_self_left, Nat.mod_eq_of_lt hb]
    have hdiv : (b + 256 * leToNat bs) / 256 = leToNat bs := by
      rw [Nat.add_mul_div_left _ _ (by norm_num), Nat.div_eq_of_lt hb, Nat.zero_add]
    simp only [List.length_cons, bytesLE, leToNat, hmod, hdiv]
    rw [ih (fun x hx => h x (List.mem_cons_of_mem b hx))]

theorem bytesLE_mod (w v : Nat) : bytesLE w (v % 256 ^ w) = bytesLE w v := by
  have h1 := leToNat_bytesLE w v
  have h2 := bytesLE_leToNat (bytesLE w v) (bytesLE_lt w v)
  rw [length_bytesLE] at h2
  rw [← h1, h2]

theorem hostBytes_htobe (e : Endian) (w v : Nat) :
    hostBytes e w (htobe e w v) = bytesBE w v := by
  cases e with
  | big => simp [hostBytes, htobe, bytesBE, bytesLE_mod]
  | little =>
    simp only [hostBytes, htobe, beToNat, bytesBE]
    have h := bytesLE_leToNat (bytesLE w v).reverse
      (by intro b hb; exact bytesLE_lt w v b (List.mem_reverse.mp hb))
    rw [List.length_reverse, length_bytesLE] at h
    exact h

theorem beToNat_bytesBE (w v : Nat) : beToNat (bytesBE w v) = v % 256 ^ w := by
  simp [beToNat, bytesBE, List.reverse_reverse, leToNat_bytesLE]

theorem hostToNat_hostBytes (e : Endian) (w v : Nat) :
    hostToNat e (hostBytes e w v) = v % 256 ^ w := by
  cases e with
  | big => simp [hostToNat, hostBytes, beToNat_bytesBE]
  | little => simp [hostToNat, hostBytes, leToNat_bytesLE]

theorem toUnsigned_lt (w : Nat) (i : Int) : toUnsigned w i < 256 ^ w := by
  unfold toUnsigned
  have hpos : (0 : Int) < (256 : Int) ^ w := by positivity
  have h2 : i % ((256 : Int) ^ w) < (256 : Int) ^ w := Int.emod_lt_of_pos i hpos
  have h3 : ((256 : Int) ^ w) = ((256 ^ w : Nat) : Int) := by push_cast; ring
  omega

/-! ## Buffer-level lemmas -/

theorem length_writeBytes (dest : List Nat) (off : Nat) (src : List Nat)
    (h : off + src.length ≤ dest.length) :
    (OutBuffer.writeBytes dest off src).length = dest.length := by
  simp only [OutBuffer.writeBytes, List.length_append, List.length_take,
    List.length_drop]
  omega

theorem writeBytes_take_lo (dest : List Nat) (off : Nat) (src : List Nat)
    (h : off ≤ dest.length) :
    (OutBuffer.writeBytes dest off src).take off = dest.take off := by
  unfold OutBuffer.writeBytes
  rw [List.append_assoc, List.take_append_eq_append_take, List.take_take]
  simp [List.length_take, Nat.min_self, Nat.min_eq_left h]

theorem writeBytes_take_full (dest : List Nat) (off : Nat) (src : List Nat)
    (h : off ≤ dest.length) :
    (OutBuffer.writeBytes dest off src).take (off + src.length) =
      dest.take off ++ src := by
  unfold OutBuffer.writeBytes
  have hlen : (dest.take off ++ src).length = off + src.length := by
    simp [List.length_take, Nat.min_eq_left h]
  rw [← hlen, List.take_left]

theorem add_size (b : OutBuffer) (s : List Nat) :
    (b.add s).size = b.size + s.length := rfl

theorem add_capacity (b : OutBuffer) (s : List Nat) :
    (b.add s).capacity = b.capacity := rfl

theorem add_current (b : OutBuffer) (s : List Nat) :
    (b.add s).current = b.current + s.length := rfl

theorem add_buffer_length (b : OutBuffer) (s : List Nat)
    (hcur : b.current = b.size)
    (hfit : b.size + s.length ≤ b.buffer.length) :
    (b.add s).buffer.length = b.buffer.length :=
  length_writeBytes _ _ _ (by omega)

theorem add_take_full (b : OutBuffer) (s : List Nat)
    (hcur : b.current = b.size)
    (hfit : b.size + s.length ≤ b.buffer.length) :
    (b.add s).buffer.take (b.size + s.length) = b.buffer.take b.size ++ s := by
  show (OutBuffer.writeBytes b.buffer b.current s).take (b.size + s.length) =
    b.buffer.take b.size ++ s
  rw [← hcur]
  exact writeBytes_take_full _ _ _ (by omega)

theorem add_take_lo (b : OutBuffer) (s : List Nat)
    (hcur : b.current = b.size)
    (hsz : b.size ≤ b.buffer.length) :
    (b.add s).buffer.take b.size = b.buffer.take b.size := by
  show (OutBuffer.writeBytes b.buffer b.current s).take b.size =
    b.buffer.take b.size
  rw [← hcur]
  exact writeBytes_take_lo _ _ _ (by omega)

theorem applyOp_eq_add (e : Endian) (b : OutBuffer) (op : Op) :
    applyOp e b op = b.add (encode e op) := by
  cases op <;> rfl

theorem applyOps_spec (e : Endian) (ops : List Op) (b : OutBuffer)
    (hcur : b.current = b.size)
    (hfit : b.size + totalSize e ops ≤ b.buffer.length) :
    (applyOps e b ops).size = b.size + totalSize e ops ∧
    (applyOps e b ops).current = (applyOps e b ops).size ∧
    (applyOps e b ops).capacity = b.capacity ∧
    (applyOps e b ops).buffer.length = b.buffer.length ∧
    (applyOps e b ops).buffer.take ((applyOps e b ops).size) =
      b.buffer.take b.size ++ encodeAll e ops := by
  induction ops generalizing b with
  | nil =>
    refine ⟨by simp [applyOps, totalSize], by simp [applyOps, hcur], rfl, rfl, ?_⟩
    simp [applyOps, encodeAll]
  | cons op ops ih =>
    have htot : totalSize e (op :: ops) = (encode e op).length + totalSize e ops := by
      simp [totalSize]
    have hstep : applyOps e b (op :: ops) = applyOps e (b.add (encode e op)) ops := by
      simp [applyOps, applyOp_eq_add]
    have hfit1 : b.size + (encode e op).length ≤ b.buffer.length := by omega
    have hcur1 : (b.add (encode e op)).current = (b.add (encode e op)).size := by
      simp [add_current, add_size, hcur]
    have hlen1 : (b.add (encode e op)).buffer.length = b.buffer.length :=
      add_buffer_length b _ hcur hfit1
    have hfit2 : (b.add (encode e op)).size + totalSize e ops ≤
        (b.add (encode e op)).buffer.length := by
      rw [add_size, hlen1]; omega
    obtain ⟨ih1, ih2, ih3, ih4, ih5⟩ := ih (b.add (encode e op)) hcur1 hfit2
    rw [hstep]
    refine ⟨by rw [ih1, add_size]; omega, ih2, by rw [ih3, add_capacity],
      by rw [ih4, hlen1], ?_⟩
    rw [ih5, add_size]
    have htk : (b.add (encode e op)).buffer.take (b.size + (encode e op).length) =
        b.buffer.take b.size ++ encode e op := add_take_full b _ hcur hfit1
    rw [htk, List.append_assoc]
    simp [encodeAll]

theorem reachable_wf (e : Endian) (b : OutBuffer) (h : Reachable e b) :
    b.size ≤ b.capacity ∧ b.current = b.size ∧ b.buffer.length = b.capacity := by
  induction h with
  | new capacity init hinit => exact ⟨Nat.zero_le _, rfl, hinit⟩
  | copy b alloc hb halloc ih =>
    obtain ⟨ih1, ih2, ih3⟩ := ih
    refine ⟨ih1, rfl, ?_⟩
    show (OutBuffer.writeBytes alloc 0 (b.buffer.take b.size)).length = b.capacity
    rw [length_writeBytes _ _ _ (by simp [List.length_take]; omega)]
    exact halloc
  | moveTarget b hb ih => exact ih
  | moveSource b hb ih => exact ⟨Nat.le_refl 0, rfl, rfl⟩
  | add b op hb hfit ih =>
    obtain ⟨ih1, ih2, ih3⟩ := ih
    rw [applyOp_eq_add]
    have hfit' : b.size + (encode e op).length ≤ b.buffer.length := by omega
    refine ⟨?_, ?_, ?_⟩
    · rw [add_size, add_capacity]; omega
    · rw [add_current, add_size, ih2]
    · rw [add_buffer_length b _ ih2 hfit', add_capacity, ih3]

/-- The common shape of the 16/32/64-bit unsigned append: the bytes
written are the big-endian bytes of the value, and reassembling them
big-endian recovers the value exactly. -/
theorem addBE_spec (e : Endian) (b : OutBuffer) (w v : Nat)
    (hcur : b.current = b.size) (hfit : b.size + w ≤ b.buffer.length)
    (hv : v < 256 ^ w) :
    (b.add (hostBytes e w (htobe e w v))).size = b.size + w ∧
    (b.add (hostBytes e w (htobe e w v))).buffer.take (b.size + w) =
      b.buffer.take b.size ++ bytesBE w v ∧
    beToNat (bytesBE w v) = v := by
  rw [hostBytes_htobe]
  have hl : (bytesBE w v).length = w := length_bytesBE w v
  refine ⟨by rw [add_size, hl], ?_, by rw [beToNat_bytesBE, Nat.mod_eq_of_lt hv]⟩
  have h := add_take_full b (bytesBE w v) hcur (by rw [hl]; omega)
  rwa [hl] at h

/-! ## Claims -/

/-- Claim C1: for every capacity C and every sequence of append operations
whose total encoded size is at most C, after running the sequence on a
buffer constructed with capacity C, `size()` equals the sum of each
operation's encoded size and the first `size()` bytes of `data()` equal
the concatenation of each operation's encoded bytes in call order; with
an empty sequence, `new(C).size() == 0`. -/
theorem C1_append_sequence (e : Endian) (C : Nat) (init : List Nat)
    (ops : List Op) (hinit : init.length = C)
    (hfit : totalSize e ops ≤ C) :
    (OutBuffer.new C init).size = 0 ∧
    (applyOps e (OutBuffer.new C init) ops).size = totalSize e ops ∧
    (applyOps e (OutBuffer.new C init) ops).data.take (totalSize e ops) =
      encodeAll e ops := by
  obtain ⟨h1, h2, h3, h4, h5⟩ :=
    applyOps_spec e ops (OutBuffer.new C init) rfl
      (by simpa [OutBuffer.new, hinit] using hfit)
  refine ⟨rfl, by simpa [OutBuffer.new] using h1, ?_⟩
  rw [h1] at h5
  simpa [OutBuffer.data, OutBuffer.new] using h5

/-- Witness for C1: the spec's concatenation scenario — capacity 15,
append uint8 1, uint32 2, the span AA BB CC DD, uint16 3, the string
"test"; the result is the 15 bytes 01 00 00 00 02 AA BB CC DD 00 03 74
65 73 74. -/
theorem C1_append_sequence_witness :
    (OutBuffer.new 15 (List.replicate 15 0)).size = 0 ∧
    (applyOps .little (OutBuffer.new 15 (List.replicate 15 0))
      [Op.u8 1, Op.u32 2, Op.span [170, 187, 204, 221], Op.u16 3,
        Op.str [116, 101, 115, 116]]).size =
      totalSize .little
        [Op.u8 1, Op.u32 2, Op.span [170, 187, 204, 221], Op.u16 3,
          Op.str [116, 101, 115, 116]] ∧
    (applyOps .little (OutBuffer.new 15 (List.replicate 15 0))
      [Op.u8 1, Op.u32 2, Op.span [170, 187, 204, 221], Op.u16 3,
        Op.str [116, 101, 115, 116]]).data.take
      (totalSize .little
        [Op.u8 1, Op.u32 2, Op.span [170, 187, 204, 221], Op.u16 3,
          Op.str [116, 101, 115, 116]]) =
      encodeAll .little
        [Op.u8 1, Op.u32 2, Op.span [170, 187, 204, 221], Op.u16 3,
          Op.str [116, 101, 115, 116]] ∧
    encodeAll .little
        [Op.u8 1, Op.u32 2, Op.span [170, 187, 204, 221], Op.u16 3,
          Op.str [116, 101, 115, 116]] =
      [1, 0, 0, 0, 2, 170, 187, 204, 221, 0, 3, 116, 101, 115, 116] := by
  have h := C1_append_sequence .little 15 (List.replicate 15 0)
    [Op.u8 1, Op.u32 2, Op.span [170, 187, 204, 221], Op.u16 3,
      Op.str [116, 101, 115, 116]] (by decide) (by decide)
  exact ⟨h.1, h.2.1, h.2.2, by decide⟩

/-- Claim C2: appending a 16-, 32-, or 64-bit unsigned integer value V
writes exactly 2, 4, or 8 bytes respectively in big-endian (network)
byte order, so that reinterpreting the written bytes as a big-endian
integer yields V exactly. -/
theorem C2_big_endian_roundtrip (e : Endian) (b : OutBuffer)
    (v16 v32 v64 : Nat) (hcur : b.current = b.size)
    (hfit : b.size + 8 ≤ b.buffer.length)
    (h16 : v16 < 2 ^ 16) (h32 : v32 < 2 ^ 32) (h64 : v64 < 2 ^ 64) :
    ((b.addUInt16 e v16).size = b.size + 2 ∧
      (b.addUInt16 e v16).buffer.take (b.size + 2) =
        b.buffer.take b.size ++ bytesBE 2 v16 ∧
      beToNat (bytesBE 2 v16) = v16) ∧
    ((b.addUInt32 e v32).size = b.size + 4 ∧
      (b.addUInt32 e v32).buffer.take (b.size + 4) =
        b.buffer.take b.size ++ bytesBE 4 v32 ∧
      beToNat (bytesBE 4 v32) = v32) ∧
    ((b.addUInt64 e v64).size = b.size + 8 ∧
      (b.addUInt64 e v64).buffer.take (b.size + 8) =
        b.buffer.take b.size ++ bytesBE 8 v64 ∧
      beToNat (bytesBE 8 v64) = v64) :=
  ⟨addBE_spec e b 2 v16 hcur (by omega)
      (lt_of_lt_of_le h16 (by norm_num)),
    addBE_spec e b 4 v32 hcur (by omega)
      (lt_of_lt_of_le h32 (by norm_num)),
    addBE_spec e b 8 v64 hcur (by omega)
      (lt_of_lt_of_le h64 (by norm_num))⟩

/-- Witness for C2 on a little-endian host with the boundary values
65535 = 2^16 − 1, 2^32 − 2, and 1, starting from a fresh buffer of
capacity 8. -/
theorem C2_big_endian_roundtrip_witness :
    (((OutBuffer.new 8 (List.replicate 8 0)).addUInt16 .little 65535).size = 2 ∧
      ((OutBuffer.new 8 (List.replicate 8 0)).addUInt16 .little 65535).buffer.take 2 =
        bytesBE 2 65535 ∧
      beToNat (bytesBE 2 65535) = 65535) ∧
    (((OutBuffer.new 8 (List.replicate 8 0)).addUInt32 .little 4294967294).size = 4 ∧
      ((OutBuffer.new 8 (List.replicate 8 0)).addUInt32 .little 4294967294).buffer.take 4 =
        bytesBE 4 4294967294 ∧
      beToNat (bytesBE 4 4294967294) = 4294967294) ∧
    (((OutBuffer.new 8 (List.replicate 8 0)).addUInt64 .little 1).size = 8 ∧
      ((OutBuffer.new 8 (List.replicate 8 0)).addUInt64 .little 1).buffer.take 8 =
        bytesBE 8 1 ∧
      beToNat (bytesBE 8 1) = 1) :=
  C2_big_endian_roundtrip .little (OutBuffer.new 8 (List.replicate 8 0))
    65535 4294967294 1 rfl (by decide) (by decide) (by decide) (by decide)

/-- Claim C3: appending a 32-bit or 64-bit floating-point value (modelled
by its bit pattern) writes exactly 4 or 8 bytes that are the host-native
byte representation of the value verbatim, with no byte-order
conversion, so reinterpreting the written bytes in host byte order
yields a bit-identical value. -/
theorem C3_float_verbatim (e : Endian) (b : OutBuffer) (p32 p64 : Nat)
    (hcur : b.current = b.size) (hfit : b.size + 8 ≤ b.buffer.length)
    (h32 : p32 < 2 ^ 32) (h64 : p64 < 2 ^ 64) :
    ((b.addFloat e p32).size = b.size + 4 ∧
      (b.addFloat e p32).buffer.take (b.size + 4) =
        b.buffer.take b.size ++ hostBytes e 4 p32 ∧
      hostToNat e (hostBytes e 4 p32) = p32) ∧
    ((b.addDouble e p64).size = b.size + 8 ∧
      (b.addDouble e p64).buffer.take (b.size + 8) =
        b.buffer.take b.size ++ hostBytes e 8 p64 ∧
      hostToNat e (hostBytes e 8 p64) = p64) := by
  have hl4 : (hostBytes e 4 p32).length = 4 := length_hostBytes e 4 p32
  have hl8 : (hostBytes e 8 p64).length = 8 := length_hostBytes e 8 p64
  refine ⟨⟨?_, ?_, ?_⟩, ⟨?_, ?_, ?_⟩⟩
  · show (b.add (hostBytes e 4 p32)).size = b.size + 4
    rw [add_size, hl4]
  · have h := add_take_full b (hostBytes e 4 p32) hcur (by rw [hl4]; omega)
    rw [hl4] at h
    exact h
  · rw [hostToNat_hostBytes]
    exact Nat.mod_eq_of_lt (lt_of_lt_of_le h32 (by norm_num))
  · show (b.add (hostBytes e 8 p64)).size = b.size + 8
    rw [add_size, hl8]
  · have h := add_take_full b (hostBytes e 8 p64) hcur (by rw [hl8]; omega)
    rw [hl8] at h
    exact h
  · rw [hostToNat_hostBytes]
    exact Nat.mod_eq_of_lt (lt_of_lt_of_le h64 (by norm_num))

/-- Witness for C3 on a little-endian host with the 32-bit NaN payload
0x7FC00001 = 2143289345 and the 64-bit subnormal pattern 1, starting
from a fresh buffer of capacity 8. -/
theorem C3_float_verbatim_witness :
    (((OutBuffer.new 8 (List.replicate 8 0)).addFloat .little 2143289345).size = 4 ∧
      ((OutBuffer.new 8 (List.replicate 8 0)).addFloat .little 2143289345).buffer.take 4 =
        hostBytes .little 4 2143289345 ∧
      hostToNat .little (hostBytes .little 4 2143289345) = 2143289345) ∧
    (((OutBuffer.new 8 (List.replicate 8 0)).addDouble .little 1).size = 8 ∧
      ((OutBuffer.new 8 (List.replicate 8 0)).addDouble .little 1).buffer.take 8 =
        hostBytes .little 8 1 ∧
      hostToNat .little (hostBytes .little 8 1) = 1) :=
  C3_float_verbatim .little (OutBuffer.new 8 (List.replicate 8 0))
    2143289345 1 rfl (by decide) (by decide) (by decide)

/-- Claim C4: copying a buffer yields a buffer with the same capacity,
the same size, identical bytes below `size()`, and a write cursor at the
source's write position (not its capacity); the copy is immediately
ready to continue appending from the same logical offset, and in this
pure model an append to the copy produces a new value, leaving the
source untouched. -/
theorem C4_copy_semantics (b : OutBuffer) (alloc s : List Nat)
    (halloc : alloc.length = b.capacity)
    (hsz : b.size ≤ b.capacity) (hlen : b.buffer.length = b.capacity)
    (hs : b.size + s.length ≤ b.capacity) :
    (b.copy alloc).capacity = b.capacity ∧
    (b.copy alloc).size = b.size ∧
    (b.copy alloc).current = b.size ∧
    (b.copy alloc).buffer.take b.size = b.buffer.take b.size ∧
    ((b.copy alloc).add s).size = b.size + s.length ∧
    ((b.copy alloc).add s).buffer.take (b.size + s.length) =
      b.buffer.take b.size ++ s := by
  have hsrc : (b.buffer.take b.size).length = b.size := by
    rw [List.length_take]; omega
  have hcpy : (b.copy alloc).buffer.take b.size = b.buffer.take b.size := by
    show (OutBuffer.writeBytes alloc 0 (b.buffer.take b.size)).take b.size =
      b.buffer.take b.size
    have h := writeBytes_take_full alloc 0 (b.buffer.take b.size)
      (Nat.zero_le _)
    rw [hsrc] at h
    simpa using h
  have hclen : (b.copy alloc).buffer.length = b.capacity := by
    show (OutBuffer.writeBytes alloc 0 (b.buffer.take b.size)).length = b.capacity
    rw [length_writeBytes _ _ _ (by rw [hsrc]; omega)]
    exact halloc
  have hcsize : (b.copy alloc).size = b.size := rfl
  refine ⟨rfl, rfl, rfl, hcpy, by rw [add_size, hcsize], ?_⟩
  have h := add_take_full (b.copy alloc) s rfl
    (by rw [hclen, hcsize]; exact hs)
  rw [hcsize, hcpy] at h
  exact h

/-- Witness for C4: a buffer with bytes 5, 6 written and one byte of
spare capacity, copied into a fresh 3-byte allocation and then extended
with the byte 9. -/
theorem C4_copy_semantics_witness :
    (({ buffer := [5, 6, 7], current := 2, size := 2, capacity := 3 :
        OutBuffer }.copy [0, 0, 0]).capacity = 3 ∧
      ({ buffer := [5, 6, 7], current := 2, size := 2, capacity := 3 :
        OutBuffer }.copy [0, 0, 0]).size = 2 ∧
      ({ buffer := [5, 6, 7], current := 2, size := 2, capacity := 3 :
        OutBuffer }.copy [0, 0, 0]).current = 2 ∧
      ({ buffer := [5, 6, 7], current := 2, size := 2, capacity := 3 :
        OutBuffer }.copy [0, 0, 0]).buffer.take 2 = [5, 6] ∧
      (({ buffer := [5, 6, 7], current := 2, size := 2, capacity := 3 :
        OutBuffer }.copy [0, 0, 0]).add [9]).size = 3 ∧
      (({ buffer := [5, 6, 7], current := 2, size := 2, capacity := 3 :
        OutBuffer }.copy [0, 0, 0]).add [9]).buffer.take 3 = [5, 6, 9]) :=
  C4_copy_semantics
    { buffer := [5, 6, 7], current := 2, size := 2, capacity := 3 }
    [0, 0, 0] [9] (by decide) (by decide) (by decide) (by decide)

/-- Claim C5: moving from a buffer transfers its allocation, cursor,
size and capacity to the target without copying, and leaves the source
in an inert state with size 0, capacity 0 and its internal pointer
cleared, so destroying the source cannot free the target's memory. -/
theorem C5_move_semantics (b : OutBuffer) :
    b.move.1.buffer = b.buffer ∧
    b.move.1.current = b.current ∧
    b.move.1.size = b.size ∧
    b.move.1.capacity = b.capacity ∧
    b.move.2.size = 0 ∧
    b.move.2.capacity = 0 ∧
    b.move.2.buffer = [] ∧
    b.move.2.current = 0 :=
  ⟨rfl, rfl, rfl, rfl, rfl, rfl, rfl, rfl⟩

/-- Claim C6: in every buffer state reachable by construction, copy,
move, and append operations whose operands fit the remaining capacity,
`0 ≤ bytes_written ≤ capacity` and the write cursor equals the base
address plus `bytes_written`. -/
theorem C6_reachable_invariant (e : Endian) (b : OutBuffer)
    (h : Reachable e b) :
    b.size ≤ b.capacity ∧ b.current = b.size :=
  ⟨(reachable_wf e b h).1, (reachable_wf e b h).2.1⟩

/-- Witness for C6: a fresh buffer of capacity 2 after appending the
16-bit integer 1. -/
theorem C6_reachable_invariant_witness :
    (applyOp .little (OutBuffer.new 2 (List.replicate 2 0)) (Op.u16 1)).size ≤
      (applyOp .little (OutBuffer.new 2 (List.replicate 2 0)) (Op.u16 1)).capacity ∧
    (applyOp .little (OutBuffer.new 2 (List.replicate 2 0)) (Op.u16 1)).current =
      (applyOp .little (OutBuffer.new 2 (List.replicate 2 0)) (Op.u16 1)).size :=
  C6_reachable_invariant .little _
    (Reachable.add _ (Op.u16 1)
      (Reachable.new 2 (List.replicate 2 0) (by decide)) (by decide))

/-- Claim C7: appending a text string writes exactly the string's byte
length bytes, verbatim with no byte-order transform, and increments
`bytes_written` by exactly that byte length.  The length hypothesis
`< 2^32` reflects the `uint32_t` length parameter; any string that fits
a buffer's capacity (itself a `uint32_t`) satisfies it. -/
theorem C7_string_verbatim (b : OutBuffer) (s : List Nat)
    (hcur : b.current = b.size) (hlen : s.length < 2 ^ 32)
    (hfit : b.size + s.length ≤ b.buffer.length) :
    (b.addString s).size = b.size + s.length ∧
    (b.addString s).buffer.take (b.size + s.length) =
      b.buffer.take b.size ++ s := by
  have htk : s.take (s.length % 2 ^ 32) = s := by
    rw [Nat.mod_eq_of_lt hlen, List.take_length]
  show (b.add (s.take (s.length % 2 ^ 32))).size = b.size + s.length ∧
    (b.add (s.take (s.length % 2 ^ 32))).buffer.take (b.size + s.length) =
      b.buffer.take b.size ++ s
  rw [htk]
  exact ⟨add_size b s, add_take_full b s hcur hfit⟩

/-- Witness for C7: appending the 4-byte string "test" to a fresh
buffer of capacity 4. -/
theorem C7_string_verbatim_witness :
    ((OutBuffer.new 4 (List.replicate 4 0)).addString
      [116, 101, 115, 116]).size = 4 ∧
    ((OutBuffer.new 4 (List.replicate 4 0)).addString
      [116, 101, 115, 116]).buffer.take 4 = [116, 101, 115, 116] :=
  C7_string_verbatim (OutBuffer.new 4 (List.replicate 4 0))
    [116, 101, 115, 116] rfl (by decide) (by decide)

/-- Claim C8: every append operation is strictly sequential — it leaves
all bytes at offsets below the pre-append `size()` unchanged, never
truncates previously written content (the size never decreases), and
leaves the capacity unchanged. -/
theorem C8_append_frame (e : Endian) (b : OutBuffer) (op : Op)
    (hcur : b.current = b.size) (hsz : b.size ≤ b.buffer.length) :
    (applyOp e b op).capacity = b.capacity ∧
    b.size ≤ (applyOp e b op).size ∧
    (applyOp e b op).buffer.take b.size = b.buffer.take b.size := by
  rw [applyOp_eq_add]
  exact ⟨add_capacity b _, by rw [add_size]; omega,
    add_take_lo b _ hcur hsz⟩

/-- Witness for C8: appending the byte 9 to a buffer that already holds
the bytes 5, 6 leaves those bytes and the capacity unchanged. -/
theorem C8_append_frame_witness :
    (applyOp .little
      { buffer := [5, 6, 7], current := 2, size := 2, capacity := 3 }
      (Op.u8 9)).capacity = 3 ∧
    2 ≤ (applyOp .little
      { buffer := [5, 6, 7], current := 2, size := 2, capacity := 3 }
      (Op.u8 9)).size ∧
    (applyOp .little
      { buffer := [5, 6, 7], current := 2, size := 2, capacity := 3 }
      (Op.u8 9)).buffer.take 2 = [5, 6] :=
  C8_append_frame .little
    { buffer := [5, 6, 7], current := 2, size := 2, capacity := 3 }
    (Op.u8 9) rfl (by decide)

/-- Claim C9: for each width in 8/16/32/64 bits, appending a signed
integer writes exactly the same buffer state as appending the unsigned
integer with the same two's-complement bit pattern: the signed and
unsigned append paths are byte-for-byte equivalent. -/
theorem C9_signed_unsigned_equiv (e : Endian) (b : OutBuffer)
    (x8 x16 x32 x64 : Int) :
    b.addInt8 x8 = b.addUInt8 (toUnsigned 1 x8) ∧
    b.addInt16 e x16 = b.addUInt16 e (toUnsigned 2 x16) ∧
    b.addInt32 e x32 = b.addUInt32 e (toUnsigned 4 x32) ∧
    b.addInt64 e x64 = b.addUInt64 e (toUnsigned 8 x64) := by
  refine ⟨?_, rfl, rfl, rfl⟩
  show b.add [toUnsigned 1 x8] = b.add [toUnsigned 1 x8 % 256]
  rw [Nat.mod_eq_of_lt (by simpa using toUnsigned_lt 1 x8)]

/-- Claim C10: appending a raw byte span with an explicit length of
zero is a no-op — the buffer state is unchanged, and subsequent appends
behave exactly as if the zero-length append had not occurred. -/
theorem C10_zero_length_noop (b : OutBuffer) (s : List Nat) :
    b.add [] = b ∧ (b.add []).add s = b.add s := by
  have h : b.add [] = b := by
    cases b with
    | mk buffer current size capacity =>
      simp [OutBuffer.add, OutBuffer.writeBytes, List.take_append_drop]
  exact ⟨h, by rw [h]⟩

end AMQPSpec
